import Mathlib

set_option maxHeartbeats 1000000

/-!
Shallow embedding of the core functions of `resume_parser.py`:
`detect_sections`, `format_sections`, `normalize_text`,
`levenshtein_distance` and `calculate_accuracy`.

Python strings are modelled as Lean `String`s (with helper operations on
`List Char`); Python's `OrderedDict` is modelled as an association list
`List (String × List String)` with in-place update semantics; the two
possible return shapes of `calculate_accuracy` (a 3-tuple or a 5-tuple)
are modelled by the inductive type `AccuracyResult`; Python floats are
modelled as rationals.  Regex character classes (`\s`, `\w`, `\d`) are
modelled by their ASCII readings.
-/

/-- Python `str.strip()` on a character list: drop whitespace at both ends. -/
def trimChars (cs : List Char) : List Char :=
  ((cs.dropWhile Char.isWhitespace).reverse.dropWhile Char.isWhitespace).reverse

/-- Model of Python `str.strip()` on strings. -/
def pyStrip (s : String) : String := ⟨trimChars s.data⟩

/-- Python `str.lower()` (ASCII model). -/
def pyLower (s : String) : String := ⟨s.data.map Char.toLower⟩

/-- Python `str.upper()` (ASCII model). -/
def pyUpper (s : String) : String := ⟨s.data.map Char.toUpper⟩

/-- Does `needle` occur as a contiguous sublist of the second argument?
Models Python's `needle in hay` substring test. -/
def charSubList (needle : List Char) : List Char → Bool
  | [] => needle.isEmpty
  | c :: tl => needle.isPrefixOf (c :: tl) || charSubList needle tl

/-- Python `needle in hay` on strings. -/
def strContains (needle hay : String) : Bool := charSubList needle.data hay.data

/-- Python `"sep".join(lst)`. -/
def joinWith (sep : String) : List String → String
  | [] => ""
  | [x] => x
  | x :: y :: tl => x ++ sep ++ joinWith sep (y :: tl)

/-- Python `"".join(lst)`. -/
def joinAll : List String → String
  | [] => ""
  | x :: tl => x ++ joinAll tl

/-! ## Section segmentation (`detect_sections`, lines 38-71 of the source) -/

/-- The static header vocabulary of `detect_sections`, in declared order. -/
def section_headers : List String :=
  ["education", "academic background", "qualifications",
   "experience", "work experience", "employment",
   "projects", "personal projects",
   "technical skills", "skills", "key skills",
   "contact", "contact information",
   "references", "hackathons",
   "extracurricular activities", "activities"]

/-- Model of `re.search(r'^\s*' + re.escape(header) + r'\s*:?\s*$', line, re.IGNORECASE)`:
the line, case-folded, must consist of optional leading whitespace, the header
phrase, optional whitespace, an optional colon, and optional trailing whitespace. -/
def headerPatternMatch (h line : String) : Bool :=
  let rest := (line.data.map Char.toLower).dropWhile Char.isWhitespace
  h.data.isPrefixOf rest &&
    (match (rest.drop h.data.length).dropWhile Char.isWhitespace with
     | [] => true
     | c :: tl => c == ':' && (tl.dropWhile Char.isWhitespace).isEmpty)

/-- The inner `for header in section_headers` loop: the first vocabulary phrase
the (already stripped) line matches, if any. -/
def findHeader (line : String) : Option String :=
  section_headers.find? (fun h => headerPatternMatch h line)

/-- Label switched to when `line` is recognised as a section header
(the matched phrase, upper-cased); `none` when the line is ordinary content. -/
def matchLabel (line : String) : Option String :=
  (findHeader (pyStrip line)).map pyUpper

/-- Model of the `OrderedDict` assignment `m[k] = v`: replace the value of an existing key in
place, or append a new key at the end. -/
def odSet : List (String × List String) → String → List String → List (String × List String)
  | [], k, v => [(k, v)]
  | (k', v') :: tl, k, v => if k' = k then (k, v) :: tl else (k', v') :: odSet tl k v

/-- Model of `m[k].append(x)`: append to the content list of key `k` (a no-op on a missing
key; in the algorithm the current key is always present). -/
def odAppend : List (String × List String) → String → String → List (String × List String)
  | [], _, _ => []
  | (k', v') :: tl, k, x => if k' = k then (k', v' ++ [x]) :: tl else (k', v') :: odAppend tl k x

/-- Model of the `OrderedDict` lookup `m[k]` (as an `Option`). -/
def odLookup : List (String × List String) → String → Option (List String)
  | [], _ => none
  | (k', v) :: tl, k => if k' = k then some v else odLookup tl k

/-- The body of the `for line in text.split('\n')` loop of `detect_sections`,
threading the state `(current_section, sections)`. -/
def goDetect : List String → String × List (String × List String) →
    String × List (String × List String)
  | [], st => st
  | line :: rest, (cur, m) =>
      let l := pyStrip line
      if l = "" then goDetect rest (cur, m)
      else
        match findHeader l with
        | some h => goDetect rest (pyUpper h, odSet m (pyUpper h) [])
        | none => goDetect rest (cur, odAppend m cur l)

/-- The segmentation of `detect_sections` on an explicit line sequence. -/
def detectLines (lines : List String) : List (String × List String) :=
  (goDetect lines ("HEADER", [("HEADER", [])])).2

/-- Model of Python `text.split('\n')`: cut the string at every newline,
keeping empty pieces. -/
def splitLinesAux : List Char → List Char → List String
  | [], acc => [⟨acc.reverse⟩]
  | c :: tl, acc =>
      if c = '\n' then ⟨acc.reverse⟩ :: splitLinesAux tl []
      else splitLinesAux tl (c :: acc)

/-- Python `text.split('\n')`. -/
def pySplitNl (s : String) : List String := splitLinesAux s.data []

/-- Model of `detect_sections(text)`: split on newlines, then segment. -/
def detect_sections (text : String) : List (String × List String) :=
  detectLines (pySplitNl text)

/-! ## Section formatting (`format_sections`, lines 73-107 of the source) -/

/-- Character class `[\d\s\-\(\)]` of the phone regex (ASCII model). -/
def isPhoneClass (c : Char) : Bool :=
  c.isDigit || c.isWhitespace || c == '-' || c == '(' || c == ')'

/-- After an initial digit, try to consume `[\d\s\-\(\)]{7,}` followed by a final
digit; `n` counts the class characters consumed so far. -/
def phoneTail : List Char → Nat → Bool
  | [], _ => false
  | c :: tl, n => (decide (7 ≤ n) && c.isDigit) || (isPhoneClass c && phoneTail tl (n + 1))

/-- Does `\d[\d\s\-\(\)]{7,}\d` match at the start of the list? -/
def phoneMatchAt : List Char → Bool
  | [] => false
  | c :: tl => c.isDigit && phoneTail tl 0

/-- Does `\d[\d\s\-\(\)]{7,}\d` match anywhere?  (The `\+?` of the source
pattern never changes whether a match exists, so it is dropped here.) -/
def phoneSearch : List Char → Bool
  | [] => false
  | c :: tl => phoneMatchAt (c :: tl) || phoneSearch tl

/-- Model of `re.search(r'(\+?\d[\d\s\-\(\)]{7,}\d)', line)` as a Boolean. -/
def containsPhone (line : String) : Bool := phoneSearch line.data

/-- The contact-line classification of `format_sections` (lines 92-102). -/
def classifyContactLine (line : String) : String :=
  if containsPhone line then "Phone: " ++ line
  else if line.data.contains '@' then "Email: " ++ line
  else if strContains "linkedin.com" (pyLower line) then "LinkedIn: " ++ line
  else if strContains "github.com" (pyLower line) then "GitHub: " ++ line
  else line

/-- The string(s) appended to `formatted_text` for one `(section, content)` pair
of the loop in `format_sections`, concatenated. -/
def sectionBlock (sect : String) (content : List String) : String :=
  if content.isEmpty then ""
  else if sect = "HEADER" then
    pyUpper (content.headD "") ++ "\n\n" ++
      (if 1 < content.length then joinWith "\n" content.tail ++ "\n" else "")
  else
    "\n\n" ++ pyUpper sect ++ "\n\n" ++
      (if strContains "contact" (pyLower sect) then
        joinWith "\n" (content.map classifyContactLine)
      else
        joinWith "\n" (content.map (fun l => "â€¢ " ++ l)))

/-- Model of `format_sections(sections)`: concatenate all per-section blocks in map
order, then strip the result. -/
def format_sections (m : List (String × List String)) : String :=
  pyStrip (joinAll (m.map (fun p => sectionBlock p.1 p.2)))

/-! ## Normalization (`normalize_text`, lines 146-150 of the source) -/

/-- Python `\w` (ASCII model): letters, digits, underscore. -/
def isWordChar (c : Char) : Bool := c.isAlphanum || c == '_'

/-- Model of `re.sub(r'\s+', ' ', ·)`: replace each maximal whitespace run by a
single space.  The flag records whether we are inside a run. -/
def collapseWsAux : Bool → List Char → List Char
  | _, [] => []
  | inRun, c :: tl =>
      if c.isWhitespace then
        if inRun then collapseWsAux true tl else ' ' :: collapseWsAux true tl
      else c :: collapseWsAux false tl

/-- Model of `normalize_text(text)`: lower-case, strip, collapse whitespace runs to single
spaces, then delete every character matching `[^\w\s]`. -/
def normalize_text (s : String) : String :=
  ⟨(collapseWsAux false (trimChars (s.data.map Char.toLower))).filter
    (fun c => isWordChar c || c.isWhitespace)⟩

/-! ## Edit distance (`levenshtein_distance`, lines 152-169 of the source) -/

/-- The inner `for j, c2 in enumerate(s2)` loop: given the previous row (aligned
with the remaining suffix of `s2`) and the last computed cell of the current
row, produce the rest of the current row. -/
def levRow (c1 : Char) : List Char → List Nat → Nat → List Nat
  | [], _, last => [last]
  | _ :: _, [], last => [last]
  | c2 :: tl, p0 :: rest, last =>
      last :: levRow c1 tl rest
        (min (rest.headD 0 + 1) (min (last + 1) (p0 + (if c1 = c2 then 0 else 1))))

/-- The outer `for i, c1 in enumerate(s1)` loop, threading `previous_row`. -/
def levLoop (s2 : List Char) : List Char → Nat → List Nat → List Nat
  | [], _, prev => prev
  | c1 :: tl, i, prev => levLoop s2 tl (i + 1) (levRow c1 s2 prev (i + 1))

/-- The body of `levenshtein_distance` after the argument swap. -/
def levCore (l1 l2 : List Char) : Nat :=
  if l2.length = 0 then l1.length
  else (levLoop l2 l1 0 (List.range (l2.length + 1))).getLastD 0

/-- Model of `levenshtein_distance(s1, s2)`: swap so the second string is the shorter,
then run the one-row dynamic program. -/
def levenshtein_distance (s1 s2 : String) : Nat :=
  if s1.length < s2.length then levCore s2.data s1.data else levCore s1.data s2.data

/-! ## Accuracy (`calculate_accuracy`, lines 171-183 of the source) -/

/-- Rounding to two decimals, `round(x, 2)`, on the rational model of floats. -/
def roundTo2 (q : ℚ) : ℚ := (round (q * 100) : ℤ) / 100

/-- The two possible return shapes of `calculate_accuracy`: a 3-tuple on the
empty-input path and a 5-tuple otherwise. -/
inductive AccuracyResult where
  | short (accuracy : ℚ) (extractedNorm groundTruthNorm : String)
  | full (accuracy : ℚ) (extractedNorm groundTruthNorm : String) (distance maxLength : Nat)
  deriving DecidableEq

/-- The accuracy component of either result shape. -/
def AccuracyResult.accuracy : AccuracyResult → ℚ
  | .short a _ _ => a
  | .full a _ _ _ _ => a

/-- Is the result the 3-component (empty-input) shape? -/
def AccuracyResult.isShort : AccuracyResult → Bool
  | .short _ _ _ => true
  | .full _ _ _ _ _ => false

/-- Model of `calculate_accuracy(extracted_text, ground_truth_text)`. -/
def calculate_accuracy (extracted_text ground_truth_text : String) : AccuracyResult :=
  let en := normalize_text extracted_text
  let gn := normalize_text ground_truth_text
  if en = "" ∨ gn = "" then .short 0 en gn
  else
    let d := levenshtein_distance en gn
    let m := max en.length gn.length
    let acc : ℚ := if 0 < m then (1 - (d : ℚ) / (m : ℚ)) * 100 else 0
    .full (roundTo2 acc) en gn d m


/-! ## Reference Levenshtein distance and correctness of the DP -/

/-- The textbook Levenshtein distance, by structural recursion on both lists. -/
def lev : List Char → List Char → Nat
  | [], ys => ys.length
  | x :: xs, [] => (x :: xs).length
  | x :: xs, y :: ys =>
      min (lev xs (y :: ys) + 1)
        (min (lev (x :: xs) ys + 1) (lev xs ys + (if x = y then 0 else 1)))

theorem lev_nil_left (ys : List Char) : lev [] ys = ys.length := by
  cases ys <;> simp [lev]

theorem lev_nil_right (xs : List Char) : lev xs [] = xs.length := by
  cases xs <;> simp [lev]

theorem lev_symm : ∀ (a b : List Char), lev a b = lev b a := by
  intro a
  induction a with
  | nil => intro b; rw [lev_nil_left, lev_nil_right]
  | cons x xs ih =>
    intro b
    induction b with
    | nil => rw [lev_nil_left, lev_nil_right]
    | cons y ys ihb =>
      simp only [lev]
      rw [ih (y :: ys), ihb, ih ys]
      have hc : (if x = y then 0 else 1) = (if y = x then 0 else 1) := by
        by_cases h : x = y
        · rw [if_pos h, if_pos h.symm]
        · rw [if_neg h, if_neg (fun e => h e.symm)]
      rw [hc]
      omega

theorem lev_le_max : ∀ (a b : List Char), lev a b ≤ max a.length b.length := by
  intro a
  induction a with
  | nil => intro b; rw [lev_nil_left]; omega
  | cons x xs ih =>
    intro b
    induction b with
    | nil => rw [lev_nil_right]; omega
    | cons y ys ihb =>
      simp only [lev]
      have h1 := ih ys
      have h2 : (if x = y then 0 else 1) ≤ 1 := by split <;> omega
      simp only [List.length_cons]
      omega

/-- The distances-of-reversed-prefixes table: `rF l1 l2 i j` is the Levenshtein
distance between the first `i` characters of `l1` and the first `j` characters
of `l2` (computed on the reversals, which is what the front-recursive `lev`
consumes when the DP extends prefixes on the right). -/
def rF (l1 l2 : List Char) (i j : Nat) : Nat :=
  lev ((l1.take i).reverse) ((l2.take j).reverse)

theorem take_succ_of_drop : ∀ (l : List Char) (i : Nat) (c : Char) (tl : List Char),
    l.drop i = c :: tl → l.take (i + 1) = l.take i ++ [c] := by
  intro l
  induction l with
  | nil => intro i c tl h; simp at h
  | cons x xs ih =>
    intro i c tl h
    cases i with
    | zero =>
      simp only [List.drop_zero] at h
      cases h
      rfl
    | succ i =>
      simp only [List.drop_succ_cons] at h
      simp only [List.take_succ_cons, ih i c tl h, List.cons_append]

theorem drop_succ_of_drop {l : List Char} {i : Nat} {c : Char} {tl : List Char}
    (h : l.drop i = c :: tl) : l.drop (i + 1) = tl := by
  rw [← List.drop_drop, h, List.drop_one, List.tail_cons]

theorem length_gt_of_drop {l : List Char} {i : Nat} {c : Char} {tl : List Char}
    (h : l.drop i = c :: tl) : i < l.length := by
  have := congrArg List.length h
  rw [List.length_drop] at this
  simp only [List.length_cons] at this
  omega

theorem rF_zero_left (l1 l2 : List Char) (j : Nat) (hj : j ≤ l2.length) :
    rF l1 l2 0 j = j := by
  unfold rF
  rw [List.take_zero, List.reverse_nil, lev_nil_left, List.length_reverse,
    List.length_take]
  omega

theorem rF_zero_right (l1 l2 : List Char) (i : Nat) (hi : i ≤ l1.length) :
    rF l1 l2 i 0 = i := by
  unfold rF
  rw [List.take_zero, List.reverse_nil, lev_nil_right, List.length_reverse,
    List.length_take]
  omega

theorem rF_succ_succ (l1 l2 : List Char) (i j : Nat) (c1 c2 : Char) (t1 t2 : List Char)
    (h1 : l1.drop i = c1 :: t1) (h2 : l2.drop j = c2 :: t2) :
    rF l1 l2 (i + 1) (j + 1) =
      min (rF l1 l2 i (j + 1) + 1)
        (min (rF l1 l2 (i + 1) j + 1) (rF l1 l2 i j + (if c1 = c2 then 0 else 1))) := by
  unfold rF
  rw [take_succ_of_drop l1 i c1 t1 h1, take_succ_of_drop l2 j c2 t2 h2]
  simp only [List.reverse_append, List.reverse_cons, List.reverse_nil, List.nil_append,
    List.singleton_append]
  simp only [lev]

theorem map_range_succ_shift (f : Nat → Nat) (n : Nat) :
    (List.range (n + 1)).map f = f 0 :: (List.range n).map (fun k => f (k + 1)) := by
  rw [List.range_succ_eq_map, List.map_cons, List.map_map]
  rfl

theorem levRow_spec (l1 l2 : List Char) (i : Nat) (c1 : Char) (t1 : List Char)
    (hc1 : l1.drop i = c1 :: t1) :
    ∀ (t2 : List Char) (j : Nat), l2.drop j = t2 →
      levRow c1 t2 ((List.range (t2.length + 1)).map (fun k => rF l1 l2 i (j + k)))
          (rF l1 l2 (i + 1) j) =
        (List.range (t2.length + 1)).map (fun k => rF l1 l2 (i + 1) (j + k)) := by
  intro t2
  induction t2 with
  | nil =>
    intro j h
    simp [levRow, map_range_succ_shift]
  | cons c2 tl ih =>
    intro j h
    simp only [List.length_cons]
    rw [map_range_succ_shift (fun k => rF l1 l2 i (j + k)) (tl.length + 1)]
    rw [map_range_succ_shift (fun k => rF l1 l2 i (j + (k + 1))) tl.length]
    simp only [levRow, List.headD_cons]
    have hshift1 : (fun k => rF l1 l2 i (j + (k + 1))) = fun k => rF l1 l2 i (j + 1 + k) := by
      funext k; congr 1; omega
    have hcell : min (rF l1 l2 i (j + (0 + 1)) + 1)
        (min (rF l1 l2 (i + 1) j + 1) (rF l1 l2 i (j + 0) + (if c1 = c2 then 0 else 1))) =
        rF l1 l2 (i + 1) (j + 1) := by
      rw [(rF_succ_succ l1 l2 i j c1 c2 t1 tl hc1 h)]
      norm_num
    rw [hcell]
    have hprev : (rF l1 l2 i (j + (0 + 1)) ::
        List.map (fun k => rF l1 l2 i (j + (k + 1 + 1))) (List.range tl.length)) =
        (List.range (tl.length + 1)).map (fun k => rF l1 l2 i (j + 1 + k)) := by
      rw [map_range_succ_shift (fun k => rF l1 l2 i (j + 1 + k)) tl.length]
      congr 1
      apply List.map_congr_left
      intro k _
      congr 1
      omega
    rw [hprev, ih (j + 1) (drop_succ_of_drop h)]
    rw [map_range_succ_shift (fun k => rF l1 l2 (i + 1) (j + k)) (tl.length + 1)]
    congr 1
    apply List.map_congr_left
    intro k _
    congr 1
    omega

theorem levLoop_spec (l1 l2 : List Char) :
    ∀ (t1 : List Char) (i : Nat), l1.drop i = t1 →
      levLoop l2 t1 i ((List.range (l2.length + 1)).map (fun k => rF l1 l2 i k)) =
        (List.range (l2.length + 1)).map (fun k => rF l1 l2 l1.length k) := by
  intro t1
  induction t1 with
  | nil =>
    intro i h
    have hlen : l1.length ≤ i := by
      have := congrArg List.length h
      rw [List.length_drop] at this
      simp only [List.length_nil] at this
      omega
    simp only [levLoop]
    apply List.map_congr_left
    intro k _
    unfold rF
    rw [List.take_of_length_le hlen, List.take_length]
  | cons c1 tl ih =>
    intro i h
    simp only [levLoop]
    have hrow := levRow_spec l1 l2 i c1 tl h l2 0 (by simp)
    have hshift : ∀ i' : Nat, (fun k => rF l1 l2 i' (0 + k)) = fun k => rF l1 l2 i' k := by
      intro i'; funext k; congr 1; omega
    rw [hshift i] at hrow
    rw [hshift (i + 1)] at hrow
    have hlast : rF l1 l2 (i + 1) 0 = i + 1 :=
      rF_zero_right l1 l2 (i + 1) (length_gt_of_drop h)
    rw [hlast] at hrow
    rw [hrow]
    exact ih (i + 1) (drop_succ_of_drop h)

theorem getLastD_append_singleton : ∀ (xs : List Nat) (a d : Nat),
    (xs ++ [a]).getLastD d = a := by
  intro xs
  induction xs with
  | nil => intro a d; rfl
  | cons x tl ih =>
    intro a d
    rw [List.cons_append, List.getLastD_cons, ih]

theorem getLastD_map_range (f : Nat → Nat) (n d : Nat) :
    ((List.range (n + 1)).map f).getLastD d = f n := by
  rw [List.range_succ, List.map_append, List.map_cons, List.map_nil,
    getLastD_append_singleton]

theorem levCore_eq_lev (l1 l2 : List Char) :
    levCore l1 l2 = lev l1.reverse l2.reverse := by
  unfold levCore
  by_cases h : l2.length = 0
  · rw [if_pos h, List.length_eq_zero.mp h, List.reverse_nil, lev_nil_right,
      List.length_reverse]
  · rw [if_neg h]
    have hbase : (List.range (l2.length + 1)).map (fun k => rF l1 l2 0 k) =
        List.range (l2.length + 1) := by
      have : ∀ k ∈ List.range (l2.length + 1), rF l1 l2 0 k = id k := by
        intro k hk
        rw [List.mem_range] at hk
        exact rF_zero_left l1 l2 k (by omega)
      rw [List.map_congr_left this, List.map_id]
    rw [← hbase, levLoop_spec l1 l2 l1 0 (by simp), getLastD_map_range]
    unfold rF
    rw [List.take_length, List.take_length]

theorem levenshtein_eq_lev (s1 s2 : String) :
    levenshtein_distance s1 s2 = lev s1.data.reverse s2.data.reverse := by
  unfold levenshtein_distance
  split
  · rw [levCore_eq_lev, lev_symm]
  · rw [levCore_eq_lev]

theorem levenshtein_le_max (a b : String) :
    levenshtein_distance a b ≤ max a.length b.length := by
  rw [levenshtein_eq_lev]
  have h := lev_le_max a.data.reverse b.data.reverse
  rw [List.length_reverse, List.length_reverse] at h
  exact h

/-! ## Claim theorems: distance and accuracy -/

/-- Claim C9: the implemented distance is symmetric,
`distance(a, b) == distance(b, a)` for all strings `a`, `b`. -/
theorem C9_levenshtein_symm (a b : String) :
    levenshtein_distance a b = levenshtein_distance b a := by
  rw [levenshtein_eq_lev, levenshtein_eq_lev, lev_symm]

theorem strLengthPos (s : String) (h : s ≠ "") : 0 < s.length := by
  cases s with
  | mk data =>
    cases data with
    | nil => exact absurd rfl h
    | cons c tl => exact Nat.succ_pos tl.length

theorem roundTo2_nonneg {q : ℚ} (h : 0 ≤ q) : 0 ≤ roundTo2 q := by
  unfold roundTo2
  apply div_nonneg _ (by norm_num)
  have : (0 : ℤ) ≤ round (q * 100) := by
    rw [round_eq]
    apply Int.floor_nonneg.mpr
    have : (0 : ℚ) ≤ q * 100 := by positivity
    linarith
  exact_mod_cast this

theorem roundTo2_le_100 {q : ℚ} (h : q ≤ 100) : roundTo2 q ≤ 100 := by
  unfold roundTo2
  rw [div_le_iff₀ (by norm_num : (0 : ℚ) < 100)]
  have hz : round (q * 100) ≤ (10000 : ℤ) := by
    rw [round_eq]
    have : ⌊q * 100 + 1 / 2⌋ < (10001 : ℤ) := by
      apply Int.floor_lt.mpr
      push_cast
      linarith
    omega
  calc ((round (q * 100) : ℤ) : ℚ) ≤ ((10000 : ℤ) : ℚ) := by exact_mod_cast hz
    _ = 100 * 100 := by norm_num

/-- Claim C6: when both normalized strings are non-empty, the accuracy is the
5-component result whose score is `round((1 - d/m) * 100, 2)` for `d` the
Levenshtein distance between the normalized strings and `m` the maximum of
their lengths, and — because `d ≤ m` — the score lies in `[0, 100]`. -/
theorem C6_score_formula (e g : String)
    (he : normalize_text e ≠ "") (hg : normalize_text g ≠ "") :
    calculate_accuracy e g =
      .full
        (roundTo2 ((1 - (levenshtein_distance (normalize_text e) (normalize_text g) : ℚ) /
          ((max (normalize_text e).length (normalize_text g).length : Nat) : ℚ)) * 100))
        (normalize_text e) (normalize_text g)
        (levenshtein_distance (normalize_text e) (normalize_text g))
        (max (normalize_text e).length (normalize_text g).length) ∧
    0 ≤ (calculate_accuracy e g).accuracy ∧ (calculate_accuracy e g).accuracy ≤ 100 := by
  have hm : 0 < max (normalize_text e).length (normalize_text g).length :=
    lt_of_lt_of_le (strLengthPos _ he) (le_max_left _ _)
  have heq : calculate_accuracy e g =
      .full
        (roundTo2 ((1 - (levenshtein_distance (normalize_text e) (normalize_text g) : ℚ) /
          ((max (normalize_text e).length (normalize_text g).length : Nat) : ℚ)) * 100))
        (normalize_text e) (normalize_text g)
        (levenshtein_distance (normalize_text e) (normalize_text g))
        (max (normalize_text e).length (normalize_text g).length) := by
    simp only [calculate_accuracy]
    rw [if_neg (not_or.mpr ⟨he, hg⟩), if_pos hm]
  refine ⟨heq, ?_, ?_⟩ <;> rw [heq]
  · have hd := levenshtein_le_max (normalize_text e) (normalize_text g)
    have hdm : (levenshtein_distance (normalize_text e) (normalize_text g) : ℚ) /
        ((max (normalize_text e).length (normalize_text g).length : Nat) : ℚ) ≤ 1 := by
      rw [div_le_one (by exact_mod_cast hm)]
      exact_mod_cast hd
    exact roundTo2_nonneg (by nlinarith)
  · have hdm : (0 : ℚ) ≤ (levenshtein_distance (normalize_text e) (normalize_text g) : ℚ) /
        ((max (normalize_text e).length (normalize_text g).length : Nat) : ℚ) := by
      positivity
    exact roundTo2_le_100 (by nlinarith)

/-- Witness for C6 at the concrete inputs `"ab"`, `"b"`. -/
theorem C6_score_formula_witness :
    calculate_accuracy "ab" "b" = .full 50 "ab" "b" 1 2 ∧
    0 ≤ (calculate_accuracy "ab" "b").accuracy ∧
    (calculate_accuracy "ab" "b").accuracy ≤ 100 := by
  have h := C6_score_formula "ab" "b" (by decide) (by decide)
  refine ⟨?_, h.2.1, h.2.2⟩
  rw [h.1]
  have h1 : normalize_text "ab" = "ab" := by decide
  have h2 : normalize_text "b" = "b" := by decide
  have h3 : levenshtein_distance "ab" "b" = 1 := by decide
  rw [h1, h2, h3]
  have h4 : max (String.length "ab") (String.length "b") = 2 := by decide
  rw [h4]
  have h5 : roundTo2 ((1 - ((1 : ℕ) : ℚ) / ((2 : ℕ) : ℚ)) * 100) = 50 := by
    unfold roundTo2
    push_cast
    norm_num
  rw [h5]

/-- Claim C3: whenever either input normalizes to the empty string,
`calculate_accuracy` returns the zero-score 3-component result carrying the two
(possibly empty) normalized strings, with no edit-distance computation; in
particular the score is exactly 0. -/
theorem C3_empty_zero (e g : String)
    (h : normalize_text e = "" ∨ normalize_text g = "") :
    calculate_accuracy e g = .short 0 (normalize_text e) (normalize_text g) ∧
    (calculate_accuracy e g).accuracy = 0 := by
  have heq : calculate_accuracy e g = .short 0 (normalize_text e) (normalize_text g) := by
    simp only [calculate_accuracy]
    rw [if_pos h]
  exact ⟨heq, by rw [heq]; rfl⟩

/-- Witness for C3: `score("", "anything") = 0` and `score("anything", "") = 0`. -/
theorem C3_empty_zero_witness :
    calculate_accuracy "" "anything" = .short 0 "" "anything" ∧
    (calculate_accuracy "anything" "").accuracy = 0 := by
  constructor
  · have h := (C3_empty_zero "" "anything" (Or.inl (by decide))).1
    have h1 : normalize_text "" = "" := by decide
    have h2 : normalize_text "anything" = "anything" := by decide
    rw [h1, h2] at h
    exact h
  · exact (C3_empty_zero "anything" "" (Or.inr (by decide))).2

/-- Claim C4: the result shape depends on the inputs — the 3-component shape
occurs exactly when one of the normalized inputs is empty; with both non-empty
the result is the 5-component shape (score, two normalized strings, distance,
max length). -/
theorem C4_result_shape (e g : String) :
    ((calculate_accuracy e g).isShort = true ↔
      (normalize_text e = "" ∨ normalize_text g = "")) ∧
    (normalize_text e ≠ "" → normalize_text g ≠ "" →
      ∃ sc d m, calculate_accuracy e g =
        .full sc (normalize_text e) (normalize_text g) d m) := by
  by_cases h : normalize_text e = "" ∨ normalize_text g = ""
  · have heq : calculate_accuracy e g = .short 0 (normalize_text e) (normalize_text g) := by
      simp only [calculate_accuracy]
      rw [if_pos h]
    refine ⟨?_, ?_⟩
    · rw [heq]
      exact ⟨fun _ => h, fun _ => rfl⟩
    · intro he hg
      rcases h with h' | h'
      · exact absurd h' he
      · exact absurd h' hg
  · have heq : calculate_accuracy e g =
        .full (roundTo2 (if 0 < max (normalize_text e).length (normalize_text g).length then
            (1 - (levenshtein_distance (normalize_text e) (normalize_text g) : ℚ) /
              ((max (normalize_text e).length (normalize_text g).length : Nat) : ℚ)) * 100
          else 0))
          (normalize_text e) (normalize_text g)
          (levenshtein_distance (normalize_text e) (normalize_text g))
          (max (normalize_text e).length (normalize_text g).length) := by
      simp only [calculate_accuracy]
      rw [if_neg h]
    refine ⟨?_, fun _ _ => ⟨_, _, _, heq⟩⟩
    rw [heq]
    exact iff_of_false (by simp [AccuracyResult.isShort]) h

/-- Witness for C4 at `("", "x")` (3-component case) and `("x", "y")`
(5-component case). -/
theorem C4_result_shape_witness :
    (calculate_accuracy "" "x").isShort = true ∧
    (∃ sc d m, calculate_accuracy "x" "y" =
      .full sc (normalize_text "x") (normalize_text "y") d m) :=
  ⟨(C4_result_shape "" "x").1.mpr (Or.inl (by decide)),
   (C4_result_shape "x" "y").2 (by decide) (by decide)⟩

/-! ## Claim theorems: segmentation and formatting -/

/-- Claim C1: segmenting the example line sequence yields the ordered map
HEADER ↦ ["John Doe"], CONTACT ↦ ["john@example.com", "555-123-4567"],
SKILLS ↦ ["Python", "SQL"]; "Contact:" matches the vocabulary phrase "contact"
with its trailing colon stripped, "Skills" matches "skills" bare, and keys
appear in order of first encounter. -/
theorem C1_segmentation_example :
    detectLines ["John Doe", "Contact:", "john@example.com", "555-123-4567",
        "Skills", "Python", "SQL"] =
      [("HEADER", ["John Doe"]),
       ("CONTACT", ["john@example.com", "555-123-4567"]),
       ("SKILLS", ["Python", "SQL"])] ∧
    detect_sections
        "John Doe\nContact:\njohn@example.com\n555-123-4567\nSkills\nPython\nSQL" =
      [("HEADER", ["John Doe"]),
       ("CONTACT", ["john@example.com", "555-123-4567"]),
       ("SKILLS", ["Python", "SQL"])] ∧
    findHeader "Contact:" = some "contact" ∧
    findHeader "Skills" = some "skills" := by
  refine ⟨by decide, by decide, by decide, by decide⟩

/-- Claim C2 counterexample: on the map {HEADER: ["John Doe"]} the code emits
the first content line UPPER-CASED — the HEADER block is "JOHN DOE\n\n", not
"John Doe\n\n" as the claim states. -/
theorem C2_counterexample :
    sectionBlock "HEADER" ["John Doe"] = "JOHN DOE\n\n" ∧
    sectionBlock "HEADER" ["John Doe"] ≠ "John Doe\n\n" ∧
    format_sections [("HEADER", ["John Doe"])] = "JOHN DOE" := by
  refine ⟨by decide, by decide, by decide⟩

theorem joinAll_append (a b : List String) : joinAll (a ++ b) = joinAll a ++ joinAll b := by
  induction a with
  | nil => simp [joinAll]
  | cons x tl ih =>
    simp only [List.cons_append, joinAll, List.append_eq, ih, String.append_assoc]

/-- Claim C2 (amended): for every map with a non-empty HEADER section,
`format_sections` renders HEADER by emitting its first content line UPPER-CASED
followed by a blank line, joining any remaining HEADER lines with newlines plus
a trailing newline, and printing no section-label banner for HEADER; the other
sections' blocks surround it unchanged and the whole output is stripped. -/
theorem C2_header_rendering (content : List String) (hne : content ≠ [])
    (pre rest : List (String × List String)) :
    format_sections (pre ++ ("HEADER", content) :: rest) =
      pyStrip (joinAll (pre.map (fun p => sectionBlock p.1 p.2)) ++
        (pyUpper (content.headD "") ++ "\n\n" ++
          (if 1 < content.length then joinWith "\n" content.tail ++ "\n" else "")) ++
        joinAll (rest.map (fun p => sectionBlock p.1 p.2))) := by
  cases content with
  | nil => exact absurd rfl hne
  | cons c tl =>
    have hblock : sectionBlock "HEADER" (c :: tl) =
        pyUpper c ++ "\n\n" ++
          (if 1 < (c :: tl).length then joinWith "\n" tl ++ "\n" else "") := by
      simp [sectionBlock]
    simp only [format_sections, List.map_append, List.map_cons, joinAll_append, joinAll,
      hblock, List.headD_cons, List.tail_cons, String.append_assoc]

/-- Witness for C2 (amended) at the example map. -/
theorem C2_header_rendering_witness :
    format_sections [("HEADER", ["John Doe"])] = "JOHN DOE" := by
  have h := C2_header_rendering ["John Doe"] (by decide) [] []
  rw [show ([("HEADER", ["John Doe"])] : List (String × List String)) =
    [] ++ ("HEADER", ["John Doe"]) :: [] from rfl, h]
  decide

/-! ## Segmentation lemmas for re-entrant labels and the HEADER invariant -/

theorem odLookup_odSet_self (m : List (String × List String)) (k : String) (v : List String) :
    odLookup (odSet m k v) k = some v := by
  induction m with
  | nil => simp [odSet, odLookup]
  | cons p tl ih =>
    obtain ⟨k', v'⟩ := p
    by_cases h : k' = k
    · simp [odSet, odLookup, h]
    · simp [odSet, odLookup, h, ih]

theorem odLookup_odSet_other (m : List (String × List String)) (k k' : String)
    (v : List String) (h : k ≠ k') : odLookup (odSet m k v) k' = odLookup m k' := by
  induction m with
  | nil => simp [odSet, odLookup, h]
  | cons p tl ih =>
    obtain ⟨k0, v0⟩ := p
    by_cases h0 : k0 = k
    · subst h0
      simp [odSet, odLookup, h]
    · simp [odSet, odLookup, h0, ih]

theorem odLookup_odAppend_other (m : List (String × List String)) (k k' : String)
    (x : String) (h : k ≠ k') : odLookup (odAppend m k x) k' = odLookup m k' := by
  induction m with
  | nil => simp [odAppend, odLookup]
  | cons p tl ih =>
    obtain ⟨k0, v0⟩ := p
    by_cases h0 : k0 = k
    · subst h0
      simp [odAppend, odLookup, h, ih]
    · simp [odAppend, odLookup, h0, ih]

theorem odLookup_odAppend_self (m : List (String × List String)) (k : String)
    (x : String) (v : List String) (h : odLookup m k = some v) :
    odLookup (odAppend m k x) k = some (v ++ [x]) := by
  induction m with
  | nil => simp [odLookup] at h
  | cons p tl ih =>
    obtain ⟨k0, v0⟩ := p
    by_cases h0 : k0 = k
    · subst h0
      simp [odLookup] at h
      simp [odAppend, odLookup, h]
    · simp [odLookup, h0] at h
      simp [odAppend, odLookup, h0, ih h]

theorem goDetect_append (a b : List String) (st : String × List (String × List String)) :
    goDetect (a ++ b) st = goDetect b (goDetect a st) := by
  induction a generalizing st with
  | nil => rfl
  | cons line rest ih =>
    obtain ⟨cur, m⟩ := st
    simp only [List.cons_append, goDetect, List.append_eq]
    by_cases h : pyStrip line = ""
    · rw [if_pos h, if_pos h, ih]
    · rw [if_neg h, if_neg h]
      cases findHeader (pyStrip line) <;> simp only [ih]

/-- The content lines collected while the current label stays unchanged: the
stripped non-blank lines up to (and excluding) the first header line. -/
def collectContent : List String → List String
  | [] => []
  | line :: rest =>
      let l := pyStrip line
      if l = "" then collectContent rest
      else
        match findHeader l with
        | some _ => []
        | none => l :: collectContent rest

theorem goDetect_lookup_other (lines : List String) (L : String) :
    ∀ (cur : String) (m : List (String × List String)), cur ≠ L →
      (∀ l ∈ lines, matchLabel l ≠ some L) →
      odLookup ((goDetect lines (cur, m)).2) L = odLookup m L := by
  induction lines with
  | nil => intro cur m _ _; rfl
  | cons line rest ih =>
    intro cur m hcur hall
    simp only [goDetect]
    by_cases h : pyStrip line = ""
    · rw [if_pos h]
      exact ih cur m hcur (fun l hl => hall l (List.mem_cons_of_mem _ hl))
    · rw [if_neg h]
      cases hf : findHeader (pyStrip line) with
      | none =>
        simp only []
        rw [ih cur _ hcur (fun l hl => hall l (List.mem_cons_of_mem _ hl))]
        exact odLookup_odAppend_other m cur L (pyStrip line) hcur
      | some hd =>
        simp only []
        have hne : pyUpper hd ≠ L := by
          intro e
          apply hall line (List.mem_cons_self _ _)
          unfold matchLabel
          rw [hf, Option.map_some']
          rw [e]
        rw [ih (pyUpper hd) _ hne (fun l hl => hall l (List.mem_cons_of_mem _ hl))]
        exact odLookup_odSet_other m (pyUpper hd) L [] hne

theorem goDetect_lookup_collect (lines : List String) (L : String) :
    ∀ (m : List (String × List String)) (v : List String), odLookup m L = some v →
      (∀ l ∈ lines, matchLabel l ≠ some L) →
      odLookup ((goDetect lines (L, m)).2) L = some (v ++ collectContent lines) := by
  induction lines with
  | nil =>
    intro m v hv _
    simpa [goDetect, collectContent] using hv
  | cons line rest ih =>
    intro m v hv hall
    simp only [goDetect, collectContent]
    by_cases h : pyStrip line = ""
    · rw [if_pos h, if_pos h]
      exact ih m v hv (fun l hl => hall l (List.mem_cons_of_mem _ hl))
    · rw [if_neg h, if_neg h]
      cases hf : findHeader (pyStrip line) with
      | none =>
        simp only []
        have hv' : odLookup (odAppend m L (pyStrip line)) L = some (v ++ [pyStrip line]) :=
          odLookup_odAppend_self m L (pyStrip line) v hv
        rw [ih _ _ hv' (fun l hl => hall l (List.mem_cons_of_mem _ hl))]
        simp
      | some hd =>
        simp only []
        have hne : pyUpper hd ≠ L := by
          intro e
          apply hall line (List.mem_cons_self _ _)
          unfold matchLabel
          rw [hf, Option.map_some']
          rw [e]
        rw [goDetect_lookup_other rest L (pyUpper hd) _ hne
          (fun l hl => hall l (List.mem_cons_of_mem _ hl))]
        rw [odLookup_odSet_other m (pyUpper hd) L [] hne, hv]
        simp

/-- Claim C5: when a line matching label `L` is followed only by lines that do
not re-match `L`, the final map binds `L` exactly to the content collected
after that (last) occurrence — everything gathered under `L` before it is
discarded, replacement rather than merging. -/
theorem C5_reopen_replaces (pre post : List String) (line L : String)
    (hmatch : matchLabel line = some L)
    (hlast : ∀ l ∈ post, matchLabel l ≠ some L) :
    odLookup (detectLines (pre ++ line :: post)) L = some (collectContent post) := by
  obtain ⟨hd, hf, hup⟩ := Option.map_eq_some'.mp hmatch
  have hnb : pyStrip line ≠ "" := by
    intro e
    rw [e] at hf
    have hnone : findHeader "" = none := by decide
    rw [hnone] at hf
    cases hf
  unfold detectLines
  rw [goDetect_append]
  obtain ⟨cur1, m1⟩ := goDetect pre ("HEADER", [("HEADER", [])])
  simp only [goDetect]
  rw [if_neg hnb, hf]
  simp only []
  rw [hup]
  exact goDetect_lookup_collect post L (odSet m1 L []) []
    (odLookup_odSet_self m1 L []) hlast

/-- Witness for C5: the header "Skills" re-appears; only the content after the
last occurrence survives. -/
theorem C5_reopen_replaces_witness :
    odLookup (detectLines (["Skills", "old stuff"] ++ "Skills" :: ["new stuff"])) "SKILLS" =
      some ["new stuff"] := by
  have h := C5_reopen_replaces ["Skills", "old stuff"] ["new stuff"] "Skills" "SKILLS"
    (by decide) (by decide)
  rw [h]
  decide

theorem odSet_head_header (m : List (String × List String)) (v : List String)
    (tl : List (String × List String)) (k : String) (x : List String)
    (h : m = ("HEADER", v) :: tl) :
    ∃ v' tl', odSet m k x = ("HEADER", v') :: tl' := by
  subst h
  by_cases hk : "HEADER" = k
  · subst hk
    exact ⟨x, tl, by simp [odSet]⟩
  · exact ⟨v, odSet tl k x, by simp [odSet, hk]⟩

theorem odAppend_head_header (m : List (String × List String)) (v : List String)
    (tl : List (String × List String)) (k : String) (x : String)
    (h : m = ("HEADER", v) :: tl) :
    ∃ v' tl', odAppend m k x = ("HEADER", v') :: tl' := by
  subst h
  by_cases hk : "HEADER" = k
  · subst hk
    exact ⟨v ++ [x], tl, by simp [odAppend]⟩
  · exact ⟨v, odAppend tl k x, by simp [odAppend, hk]⟩

theorem goDetect_head_header (lines : List String) :
    ∀ (cur : String) (m : List (String × List String)) (v : List String)
      (tl : List (String × List String)), m = ("HEADER", v) :: tl →
      ∃ v' tl', (goDetect lines (cur, m)).2 = ("HEADER", v') :: tl' := by
  induction lines with
  | nil => intro cur m v tl h; exact ⟨v, tl, by simpa [goDetect] using h⟩
  | cons line rest ih =>
    intro cur m v tl h
    simp only [goDetect]
    by_cases hb : pyStrip line = ""
    · rw [if_pos hb]
      exact ih cur m v tl h
    · rw [if_neg hb]
      cases hf : findHeader (pyStrip line) with
      | none =>
        simp only []
        obtain ⟨v', tl', h'⟩ := odAppend_head_header m v tl cur (pyStrip line) h
        exact ih cur _ v' tl' h'
      | some hd =>
        simp only []
        obtain ⟨v', tl', h'⟩ := odSet_head_header m v tl (pyUpper hd) [] h
        exact ih (pyUpper hd) _ v' tl' h'

/-- Repeatedly `append` a list of lines to key `k`. -/
def odAppendList : List (String × List String) → String → List String →
    List (String × List String)
  | m, _, [] => m
  | m, k, x :: xs => odAppendList (odAppend m k x) k xs

/-- The stripped forms of the non-blank lines, in order. -/
def strippedLines : List String → List String
  | [] => []
  | line :: rest =>
      let l := pyStrip line
      if l = "" then strippedLines rest else l :: strippedLines rest

theorem goDetect_no_header (lines : List String) :
    ∀ (cur : String) (m : List (String × List String)),
      (∀ l ∈ lines, findHeader (pyStrip l) = none) →
      goDetect lines (cur, m) = (cur, odAppendList m cur (strippedLines lines)) := by
  induction lines with
  | nil => intro cur m _; rfl
  | cons line rest ih =>
    intro cur m hall
    simp only [goDetect, strippedLines]
    by_cases hb : pyStrip line = ""
    · rw [if_pos hb, if_pos hb]
      exact ih cur m (fun l hl => hall l (List.mem_cons_of_mem _ hl))
    · rw [if_neg hb, if_neg hb, hall line (List.mem_cons_self _ _)]
      simp only [odAppendList]
      exact ih cur _ (fun l hl => hall l (List.mem_cons_of_mem _ hl))

theorem odAppendList_singleton (xs : List String) :
    ∀ (k : String) (v : List String), odAppendList [(k, v)] k xs = [(k, v ++ xs)] := by
  induction xs with
  | nil => intro k v; simp [odAppendList]
  | cons x tl ih =>
    intro k v
    have hstep : odAppend [(k, v)] k x = [(k, v ++ [x])] := by simp [odAppend]
    simp only [odAppendList, hstep, ih]
    simp

/-- Claim C10: the map returned by segmentation always has HEADER as its first
key; and when no input line matches any header-vocabulary phrase, HEADER is the
only key and its content list holds every non-blank line (stripped), in order. -/
theorem C10_header_invariant (lines : List String) :
    (∃ v tl, detectLines lines = ("HEADER", v) :: tl) ∧
    ((∀ l ∈ lines, findHeader (pyStrip l) = none) →
      detectLines lines = [("HEADER", strippedLines lines)]) := by
  constructor
  · exact goDetect_head_header lines "HEADER" [("HEADER", [])] [] [] rfl
  · intro hall
    unfold detectLines
    rw [goDetect_no_header lines "HEADER" [("HEADER", [])] hall]
    simp only []
    rw [odAppendList_singleton]
    simp

/-- Witness for C10 on a concrete header-free document. -/
theorem C10_header_invariant_witness :
    detectLines ["Alice", "  ", "loves Bob"] = [("HEADER", ["Alice", "loves Bob"])] := by
  have h := (C10_header_invariant ["Alice", "  ", "loves Bob"]).2 (by decide)
  rw [h]
  decide

/-! ## Normalization claim -/

theorem collapseWs_ws_is_space : ∀ (b : Bool) (cs : List Char) (c : Char),
    c ∈ collapseWsAux b cs → c.isWhitespace = true → c = ' ' := by
  intro b cs
  induction cs generalizing b with
  | nil => intro c h _; simp [collapseWsAux] at h
  | cons x tl ih =>
    intro c hmem hws
    simp only [collapseWsAux] at hmem
    by_cases hx : x.isWhitespace = true
    · rw [if_pos hx] at hmem
      by_cases hb : b = true
      · rw [if_pos hb] at hmem
        exact ih true c hmem hws
      · rw [if_neg hb] at hmem
        rcases List.mem_cons.mp hmem with h | h
        · exact h
        · exact ih true c h hws
    · rw [if_neg hx] at hmem
      rcases List.mem_cons.mp hmem with h | h
      · subst h
        exact absurd hws hx
      · exact ih false c h hws

/-- Claim C7: `normalize_text` applies, in order, lower-casing, whitespace-run
collapsing with end trimming, and removal of every character that is neither a
word character nor whitespace; hence every output character is a word character
or a single space, and normalize("  Hello,  World!!  ") = "hello world". -/
theorem C7_normalize_pipeline (s : String) :
    normalize_text s =
      ⟨(collapseWsAux false (trimChars (pyLower s).data)).filter
        (fun c => isWordChar c || c.isWhitespace)⟩ ∧
    (∀ c ∈ (normalize_text s).data, isWordChar c = true ∨ c = ' ') ∧
    normalize_text "  Hello,  World!!  " = "hello world" := by
  refine ⟨rfl, ?_, by decide⟩
  intro c hc
  have hc' : c ∈ (collapseWsAux false (trimChars (s.data.map Char.toLower))).filter
      (fun c => isWordChar c || c.isWhitespace) := hc
  rw [List.mem_filter] at hc'
  obtain ⟨hmem, hkeep⟩ := hc'
  rw [Bool.or_eq_true] at hkeep
  rcases hkeep with h | h
  · exact Or.inl h
  · exact Or.inr (collapseWs_ws_is_space false _ c hmem h)

/-- Witness for C7: a character of a concrete normalized output. -/
theorem C7_normalize_pipeline_witness : isWordChar 'h' = true ∨ 'h' = ' ' :=
  (C7_normalize_pipeline "hi").2.1 'h' (by decide)

/-! ## Contact-line classification claim -/

/-- The phone shape as claim C8 words it: a contiguous run of characters from
the set digit/space/parenthesis/hyphen containing at least 8 digits. -/
def isSpecPhoneChar (c : Char) : Bool :=
  c.isDigit || c == ' ' || c == '(' || c == ')' || c == '-'

/-- Spec-side phone predicate, modelled from the claim's words
"a run of 8+ digits allowing spaces, parentheses, and hyphens". -/
def SpecPhoneShaped (s : String) : Prop :=
  ∃ (a run b : List Char), s.data = a ++ run ++ b ∧
    (∀ c ∈ run, isSpecPhoneChar c = true) ∧ 8 ≤ (run.filter Char.isDigit).length

/-- Declarative reading of the source's phone regex: some substring is a digit,
then at least 7 characters from the class digit/whitespace/hyphen/parenthesis,
then a digit — at least 9 characters but possibly only 2 digits. -/
def PhoneShaped (s : String) : Prop :=
  ∃ (a : List Char) (d1 : Char) (mid : List Char) (d2 : Char) (b : List Char),
    s.data = a ++ d1 :: (mid ++ d2 :: b) ∧ d1.isDigit = true ∧ d2.isDigit = true ∧
    (∀ c ∈ mid, isPhoneClass c = true) ∧ 7 ≤ mid.length

theorem phoneTail_iff : ∀ (l : List Char) (n : Nat),
    phoneTail l n = true ↔
      ∃ (mid : List Char) (d : Char) (b : List Char), l = mid ++ d :: b ∧
        (∀ c ∈ mid, isPhoneClass c = true) ∧ d.isDigit = true ∧ 7 ≤ n + mid.length := by
  intro l
  induction l with
  | nil =>
    intro n
    simp only [phoneTail]
    constructor
    · intro h; cases h
    · rintro ⟨mid, d, b, h, -⟩
      exact absurd h (by cases mid <;> simp)
  | cons c tl ih =>
    intro n
    simp only [phoneTail, Bool.or_eq_true, Bool.and_eq_true, decide_eq_true_eq, ih]
    constructor
    · rintro (⟨h7, hd⟩ | ⟨hcl, mid, d, b, heq, hmid, hd, hlen⟩)
      · exact ⟨[], c, tl, rfl, by simp, hd, by simpa using h7⟩
      · refine ⟨c :: mid, d, b, by rw [heq, List.cons_append], ?_, hd, ?_⟩
        · intro x hx
          rcases List.mem_cons.mp hx with h | h
          · subst h; exact hcl
          · exact hmid x h
        · simp only [List.length_cons]
          omega
    · rintro ⟨mid, d, b, heq, hmid, hd, hlen⟩
      cases mid with
      | nil =>
        simp only [List.nil_append] at heq
        injection heq with h1 h2
        subst h1
        subst h2
        left
        exact ⟨by simpa using hlen, hd⟩
      | cons m0 mr =>
        simp only [List.cons_append] at heq
        injection heq with h1 h2
        subst h1
        right
        refine ⟨hmid c (List.mem_cons_self _ _), mr, d, b, h2,
          fun x hx => hmid x (List.mem_cons_of_mem _ hx), hd, ?_⟩
        simp only [List.length_cons] at hlen
        omega

theorem phoneSearch_iff : ∀ (cs : List Char),
    phoneSearch cs = true ↔
      ∃ (a : List Char) (d1 : Char) (mid : List Char) (d2 : Char) (b : List Char),
        cs = a ++ d1 :: (mid ++ d2 :: b) ∧ d1.isDigit = true ∧ d2.isDigit = true ∧
        (∀ c ∈ mid, isPhoneClass c = true) ∧ 7 ≤ mid.length := by
  intro cs
  induction cs with
  | nil =>
    simp only [phoneSearch]
    constructor
    · intro h; cases h
    · rintro ⟨a, d1, mid, d2, b, h, -⟩
      exact absurd h (by cases a <;> simp)
  | cons c tl ih =>
    simp only [phoneSearch, phoneMatchAt, Bool.or_eq_true, Bool.and_eq_true, ih,
      phoneTail_iff]
    constructor
    · rintro (⟨hd, mid, d, b, heq, hmid, hdd, hlen⟩ | ⟨a, d1, mid, d2, b, heq, h1, h2, hm, hl⟩)
      · exact ⟨[], c, mid, d, b, by rw [heq, List.nil_append], hd, hdd, hmid, by omega⟩
      · exact ⟨c :: a, d1, mid, d2, b, by rw [heq, List.cons_append], h1, h2, hm, hl⟩
    · rintro ⟨a, d1, mid, d2, b, heq, h1, h2, hm, hl⟩
      cases a with
      | nil =>
        simp only [List.nil_append] at heq
        injection heq with ha hb
        subst ha
        left
        exact ⟨h1, mid, d2, b, hb, hm, h2, by omega⟩
      | cons a0 ar =>
        simp only [List.cons_append] at heq
        injection heq with ha hb
        right
        exact ⟨ar, d1, mid, d2, b, hb, h1, h2, hm, hl⟩

theorem containsPhone_iff (line : String) :
    containsPhone line = true ↔ PhoneShaped line :=
  phoneSearch_iff line.data

/-- Claim C8 counterexample: "12345678" is a run of 8 digits — phone-shaped in
the claim's sense — yet the code leaves the line unprefixed, because the regex
requires a digit, 7 or more class characters, and a final digit (9 characters
minimum). -/
theorem C8_counterexample :
    SpecPhoneShaped "12345678" ∧
    classifyContactLine "12345678" = "12345678" ∧
    classifyContactLine "12345678" ≠ "Phone: 12345678" := by
  refine ⟨⟨[], "12345678".data, [], by decide, by decide, by decide⟩, by decide, by decide⟩

/-- Claim C8 (amended): contact lines are classified in priority order
Phone / Email / LinkedIn / GitHub / unprefixed, where the phone test is the
source regex shape — a substring consisting of a digit, at least 7 characters
from the class digit/whitespace/hyphen/parenthesis, and a final digit
(optionally preceded by "+", which never changes whether a match exists) —
rather than the claimed "run of 8+ digits". -/
theorem C8_contact_classification (line : String) :
    (containsPhone line = true ↔ PhoneShaped line) ∧
    classifyContactLine line =
      (if containsPhone line then "Phone: " ++ line
       else if line.data.contains '@' then "Email: " ++ line
       else if strContains "linkedin.com" (pyLower line) then "LinkedIn: " ++ line
       else if strContains "github.com" (pyLower line) then "GitHub: " ++ line
       else line) :=
  ⟨containsPhone_iff line, rfl⟩

/-- Witness for C8 (amended): a 9-digit line is phone-classified, via the
declarative phone shape. -/
theorem C8_contact_classification_witness :
    classifyContactLine "123456789" = "Phone: 123456789" := by
  have h := C8_contact_classification "123456789"
  have hp : containsPhone "123456789" = true :=
    h.1.mpr ⟨[], '1', "2345678".data, '9', [], by decide, by decide, by decide,
      by decide, by decide⟩
  rw [h.2, if_pos hp]
  decide
